import Mathlib

/-!
Verification development for the odin-ai training-orchestration core
(odin/exp/trainer.py and odin/exp/experimenter.py), shallowly embedded in
Lean.  Numeric losses, thresholds and wall-clock times are modelled as
rationals; Python exceptions are modelled by explicit error values.
-/

/-- Modelled from the spec: the sentinel values Trainer.SIGNAL_BEST and
Trainer.SIGNAL_TERMINATE referenced by Trainer.early_stop are not defined in
the files under src/ (only used there); the spec treats them as two distinct
actionable signals, so they are modelled as a two-element type. -/
inductive Signal where
  | TERMINATE
  | BEST
deriving DecidableEq, Repr

/-- Minimum of a list of rationals; mirrors numpy np.min on a non-empty
array (the empty case, which raises in numpy, is totalised to 0 and is
never reached under the guards of the callers below). -/
def listMin (l : List ℚ) : ℚ :=
  match l with
  | [] => 0
  | x :: xs => xs.foldl min x

/-- Sum of a list of rationals; mirrors numpy np.sum. -/
def listSum (l : List ℚ) : ℚ := l.foldr (· + ·) 0

/-- Python slice l[-k:] for k greater than 0: the last k elements, clamped
to the whole list when k exceeds its length. -/
def takeLast (k : ℕ) (l : List α) : List α := l.drop (l.length - k)

/-- Trainer.early_stop (odin/exp/trainer.py lines 306-368).
Mirrors the source: a warm-up guard returning SIGNAL_BEST while
len(losses) is below max(2, min_epoch); generalization =
losses[-1] / min(losses[:-1]) - 1; progression = 10 * (sum(window) /
(progress_length * min(window)) - 1) over window = losses[-progress_length:]
when progress_length is greater than 1, else 1; error = generalization /
progression; threshold is replaced by its absolute value; TERMINATE when
error is at least -threshold, else BEST when generalization is negative,
else the function falls through and returns None (modelled as none). -/
def earlyStop (losses : List ℚ) (threshold : ℚ) (progressLength : ℤ)
    (minEpoch : ℤ) : Option Signal :=
  if (losses.length : ℤ) < max 2 minEpoch then some Signal.BEST
  else
    let current := losses.getLastD 0
    let best := listMin losses.dropLast
    let generalization := current / best - 1
    let progression : ℚ :=
      if 1 < progressLength then
        let progress := takeLast progressLength.toNat losses
        10 * (listSum progress / ((progressLength : ℚ) * listMin progress) - 1)
      else 1
    let error := generalization / progression
    let thr := |threshold|
    if -thr ≤ error then some Signal.TERMINATE
    else if generalization < 0 then some Signal.BEST
    else none

/-- Default of the threshold parameter of Trainer.early_stop
(odin/exp/trainer.py line 308). -/
def earlyStopThresholdDefault : ℚ := 1 / 1000

/-- Loss value returned by an optimize call, as far as the NaN/Inf guard of
Trainer.fit observes it: a float is NaN, infinite, or an ordinary finite
value. -/
inductive FVal where
  | nan
  | inf
  | fin (q : ℚ)
deriving DecidableEq, Repr

/-- np.isnan on a loss value. -/
def FVal.isNaN : FVal → Bool
  | FVal.nan => true
  | _ => false

/-- np.isinf on a loss value. -/
def FVal.isInf : FVal → Bool
  | FVal.inf => true
  | _ => false

/-- Observable events of one execution of the train() loop inside
Trainer.fit (odin/exp/trainer.py lines 649-712): the NaN termination
message, a run of the valid() closure, a callback invocation on a
validation-cadence tick, and the final callback after the loop. -/
inductive TrainEvent where
  | nanStop (n : ℕ)
  | validRun (n : ℕ)
  | callbackTick (n : ℕ)
  | finalCallback
deriving DecidableEq, Repr

/-- Preprocessing of valid_freq in Trainer.fit (lines 604-607):
valid_freq = max(1, int(valid_freq)); if valid_interval is greater than 0
the interval is preferred and valid_freq is forced to 1. -/
def effValidFreq (validFreq : ℤ) (validInterval : ℚ) : ℕ :=
  if 0 < validInterval then 1 else (max 1 validFreq).toNat

/-- Default value of the valid_freq parameter of Trainer.fit
(odin/exp/trainer.py line 546). -/
def fitValidFreqDefault : ℤ := 1000

/-- Default value of the terminate_on_nan parameter of Trainer.fit
(odin/exp/trainer.py line 553). -/
def fitTerminateOnNanDefault : Bool := true

/-- One pass of the for-loop of train() in Trainer.fit (lines 658-707),
given the remaining number of batches the iterator will still yield.
Arguments mirror the source: optimize gives the loss of the step with
n_iter = n (metrics are irrelevant to control flow and are not modelled),
tm n is the wall clock progress.time() observed at iteration n, stopAt n
tells whether the callback at iteration n cleared is_training, maxIter is
max_iter after the train_ds length default, validFreq is the already
preprocessed valid_freq, validInterval is valid_interval, ton is
terminate_on_nan and hvd tells whether valid_ds was given.  curIter is the
0-based enumerate counter, nIter the persistent self.n_iter before the
iteration, lastValid the last_valid_time value.  The i-th iteration:
increments n_iter; breaks when max_iter is positive and cur_iter has
reached it; computes the loss; breaks with the NaN message when
(terminate_on_nan and isnan(loss)) or isinf(loss) - the conjunction binds
tighter, exactly as in the source at line 670; otherwise on a validation
tick (n_iter divisible by valid_freq and elapsed interval at least
valid_interval) runs validation when a validation set exists, always runs
the callback, breaks if is_training was cleared, and refreshes
last_valid_time. -/
def trainAux (optimize : ℕ → FVal) (tm : ℕ → ℚ) (stopAt : ℕ → Bool)
    (maxIter : ℤ) (validFreq : ℕ) (validInterval : ℚ) (ton hvd : Bool) :
    ℕ → ℕ → ℕ → ℚ → List TrainEvent
  | 0, _, _, _ => []
  | rem + 1, curIter, nIter, lastValid =>
    let n := nIter + 1
    if 0 < maxIter ∧ maxIter ≤ (curIter : ℤ) then []
    else
      let loss := optimize n
      if (ton && loss.isNaN) || loss.isInf then [TrainEvent.nanStop n]
      else
        let interval := tm n - lastValid
        if n % validFreq = 0 ∧ validInterval ≤ interval then
          let evs := (if hvd then [TrainEvent.validRun n] else []) ++
            [TrainEvent.callbackTick n]
          if stopAt n then evs
          else evs ++ trainAux optimize tm stopAt maxIter validFreq
            validInterval ton hvd rem (curIter + 1) n (tm n)
        else trainAux optimize tm stopAt maxIter validFreq validInterval
          ton hvd rem (curIter + 1) n lastValid

/-- The train() closure of Trainer.fit: preprocesses valid_freq, runs the
loop over numBatches batches starting from the persistent iteration counter
nIter0 and start time startTime, then always runs the callback one final
time (line 709). -/
def trainRun (optimize : ℕ → FVal) (tm : ℕ → ℚ) (stopAt : ℕ → Bool)
    (maxIter validFreq : ℤ) (validInterval : ℚ) (ton hvd : Bool)
    (numBatches nIter0 : ℕ) (startTime : ℚ) : List TrainEvent :=
  trainAux optimize tm stopAt maxIter (effValidFreq validFreq validInterval)
    validInterval ton hvd numBatches 0 nIter0 startTime ++
    [TrainEvent.finalCallback]

/-- Python exceptions that the embedded experimenter code can raise. -/
inductive PyErr where
  | keyError
  | typeError
  | assertionError
deriving DecidableEq, Repr

/-- An omegaconf configuration value after the deepcopy performed by
hash_config: a finite tree whose leaves are (stringified) scalars and whose
nodes are dictionaries given as association lists in insertion order, with
unique keys as in a Python dict. -/
inductive CVal where
  | leaf (s : String)
  | node (entries : List (String × CVal))

/-- First value stored under a key in a dictionary; Python dict lookup
(keys are unique, so the first match is the only one). -/
def lookupFirst (es : List (String × CVal)) (k : String) : Option CVal :=
  match es with
  | [] => none
  | e :: rest => if e.1 = k then some e.2 else lookupFirst rest k

/-- Replace the value stored under the first occurrence of a key; models
the in-place mutation of a nested dictionary reached by attribute access,
as seen from the root of the (deep-copied, hence tree-shaped) config. -/
def replaceFirst (es : List (String × CVal)) (k : String) (v : CVal) :
    List (String × CVal) :=
  match es with
  | [] => []
  | e :: rest =>
    if e.1 = k then (k, v) :: rest else e :: replaceFirst rest k v

/-- Python del d[k] on a dictionary: removes the entry when the key is
present and raises KeyError otherwise. -/
def delKey (es : List (String × CVal)) (k : String) :
    Except PyErr (List (String × CVal)) :=
  if es.any (fun q => q.1 = k) then
    Except.ok (es.filter (fun q => ¬ q.1 = k))
  else Except.error PyErr.keyError

/-- Splitting a character list at a separator character; auxiliary for the
embedding of Python str.split. -/
def splitChar (sep : Char) : List Char → List Char → List String
  | [], acc => [String.mk acc.reverse]
  | c :: cs, acc =>
    if c = sep then String.mk acc.reverse :: splitChar sep cs []
    else splitChar sep cs (c :: acc)

/-- Python key.split of the dot character, used by Experimenter.remove_keys
for dot-separated exclude keys. -/
def splitPath (k : String) : List String := splitChar '.' k.data []

/-- Deletion of one (already dot-split) key path from a configuration,
mirroring the body of the for-loop of Experimenter.remove_keys
(odin/exp/experimenter.py lines 230-238): navigate with getattr through all
but the last component, then del the last component.  A missing or
non-dictionary intermediate raises (getattr yields None or a scalar and the
subsequent access fails), and del of a missing final key raises KeyError;
the single-component case is the plain del cfg[key] branch of the source. -/
def removeDotted : List String → CVal → Except PyErr CVal
  | [], _ => Except.error PyErr.typeError
  | [k], c =>
    match c with
    | CVal.leaf _ => Except.error PyErr.typeError
    | CVal.node es => do
      let es2 ← delKey es k
      Except.ok (CVal.node es2)
  | k :: p1 :: p, c =>
    match c with
    | CVal.leaf _ => Except.error PyErr.typeError
    | CVal.node es =>
      match lookupFirst es k with
      | none => Except.error PyErr.keyError
      | some v => do
        let v2 ← removeDotted (p1 :: p) v
        Except.ok (CVal.node (replaceFirst es k v2))

/-- Experimenter.remove_keys (odin/exp/experimenter.py lines 222-239) on
the deep copy made when copy=True: deletes each exclude key in order, a
key with a dot in it through attribute navigation and a plain key by a
direct del. -/
def removeKeysF (cfg : CVal) (keys : List String) : Except PyErr CVal :=
  keys.foldlM (fun acc k => removeDotted (splitPath k) acc) cfg

/-- Canonical serialization of a configuration, standing for the
serialization that md5_checksum performs before digesting. -/
def serialize : CVal → String
  | CVal.leaf s => String.append "s:" s
  | CVal.node [] => "()"
  | CVal.node ((k, v) :: rest) =>
    String.append (String.append (String.append "k:" k) (serialize v))
      (serialize (CVal.node rest))

/-- Modelled from the spec: md5_checksum from odin.utils.crypto is imported
by odin/exp/experimenter.py but its module is not under src/.  Per the
spec it is a deterministic cryptographic digest of the serialized
configuration rendered in hex; it is modelled by a deterministic stand-in
digest with the same interface, producing 32 hex characters. -/
def md5Checksum (s : String) : String :=
  let h := s.data.foldl (fun a c => (a * 131 + c.toNat + 7) % 2 ^ 128) 5381
  String.mk ((List.range 32).map (fun i => Nat.digitChar (h / 16 ^ i % 16)))

/-- Experimenter.hash_config (odin/exp/experimenter.py lines 241-250) on a
configuration value: remove the exclude keys from a deep copy and keep the
first 8 characters of the digest. -/
def hashConfig (cfg : CVal) (excludeKeys : List String) :
    Except PyErr String := do
  let c ← removeKeysF cfg excludeKeys
  Except.ok (String.mk ((md5Checksum (serialize c)).data.take 8))

/-- Whether a (dot-split) key path is present in a configuration: each
intermediate component resolves to a nested dictionary and the final
component is a key of it. -/
def pathPresent : List String → CVal → Bool
  | [], _ => false
  | [k], c =>
    match c with
    | CVal.leaf _ => false
    | CVal.node es => es.any (fun q => q.1 = k)
  | k :: p1 :: p, c =>
    match c with
    | CVal.leaf _ => false
    | CVal.node es =>
      match lookupFirst es k with
      | none => false
      | some v => pathPresent (p1 :: p) v

/-- Two configurations that are identical except for the scalar stored at
one key path: the path descends through the first occurrence of each
component and ends at a leaf whose content may differ. -/
inductive DifferAtLeaf : List String → CVal → CVal → Prop where
  | here (k : String) (pre post : List (String × CVal)) (s1 s2 : String)
      (hpre : ∀ q ∈ pre, q.1 ≠ k) :
      DifferAtLeaf [k] (CVal.node (pre ++ (k, CVal.leaf s1) :: post))
        (CVal.node (pre ++ (k, CVal.leaf s2) :: post))
  | there (k : String) (p : List String) (pre post : List (String × CVal))
      (w1 w2 : CVal) (hpre : ∀ q ∈ pre, q.1 ≠ k)
      (h : DifferAtLeaf p w1 w2) :
      DifferAtLeaf (k :: p) (CVal.node (pre ++ (k, w1) :: post))
        (CVal.node (pre ++ (k, w2) :: post))

/-- Per-value single overrides produced from one key=v1,v2,... override:
the value is split at commas and each piece is recombined with the key,
mirroring the list comprehension of Experimenter.parse_overrides
(odin/exp/experimenter.py line 323).  Overrides are represented as
(key, value) pairs, the two halves of the key=value string. -/
def overrideValues (kv : String × String) : List (String × String) :=
  (splitChar ',' kv.2.data []).map (fun v => (kv.1, v))

/-- itertools.product of a list of lists, in product order: the first list
varies slowest and the last varies fastest, one tuple per combination. -/
def listProduct : List (List α) → List (List α)
  | [] => [[]]
  | l :: ls => l.flatMap (fun x => (listProduct ls).map (fun t => x :: t))

/-- Experimenter.parse_overrides (odin/exp/experimenter.py lines 315-325):
each override key must be a member of the known key set collected from the
schema (the assert at line 320, AssertionError otherwise), each value is
split at commas into per-value single overrides, and the result is the
itertools.product across all overrides. -/
def parseOverrides (allKeys : List String)
    (ovr : List (String × String)) :
    Except PyErr (List (List (String × String))) := do
  let lists ← ovr.mapM (fun kv =>
    if kv.1 ∈ allKeys then Except.ok (overrideValues kv)
    else Except.error PyErr.assertionError)
  Except.ok (listProduct lists)

/-- Result of Experimenter.load_configuration: a single configuration when
exactly one combination resulted, else the list of configurations. -/
inductive ConfigResult where
  | single (c : CVal)
  | multiple (cs : List CVal)

/-- Experimenter.load_configuration (odin/exp/experimenter.py lines
327-338): applies each override-tuple through the hydra config loader
(abstracted as the function loadCfg, an external collaborator) and returns
returns[0] when exactly one configuration resulted, else the whole list in
product order. -/
def loadConfiguration (loadCfg : List (String × String) → CVal)
    (allKeys : List String) (ovr : List (String × String)) :
    Except PyErr ConfigResult := do
  let combos ← parseOverrides allKeys ovr
  let returns := combos.map loadCfg
  Except.ok
    (match returns with
     | [c] => ConfigResult.single c
     | cs => ConfigResult.multiple cs)

/-- A Python value flowing into the dynamic call of hash_config inside
Experimenter.hash: either a single configuration or the list of
configurations that load_configuration returned. -/
inductive PyVal where
  | cfg (c : CVal)
  | cfgList (cs : List CVal)

/-- The dynamic behaviour of Experimenter.hash_config when applied to an
arbitrary value: its first statement asserts
isinstance(cfg, (DictConfig, dict)), so a list argument raises
AssertionError before anything else happens. -/
def hashConfigDyn (v : PyVal) (excludeKeys : List String) :
    Except PyErr String :=
  match v with
  | PyVal.cfg c => hashConfig c excludeKeys
  | PyVal.cfgList _ => Except.error PyErr.assertionError

/-- Result of Experimenter.hash: a hash string in the single-configuration
case, a list of hash strings in the multi-configuration case. -/
inductive HashResult where
  | single (s : String)
  | multiple (ss : List String)

/-- Experimenter.hash (odin/exp/experimenter.py lines 340-347): loads the
configuration(s) for the overrides and, on a DictConfig, hashes it; on a
list it evaluates the comprehension
[Experimenter.hash_config(cfg, self.exclude_keys) for c in cfg], whose
loop variable c is unused while the whole list cfg is passed to
hash_config at every element, exactly as in the source. -/
def hashMethod (loadCfg : List (String × String) → CVal)
    (allKeys excludeKeys : List String) (ovr : List (String × String)) :
    Except PyErr HashResult := do
  let cfg ← loadConfiguration loadCfg allKeys ovr
  match cfg with
  | ConfigResult.single c => do
    let s ← hashConfig c excludeKeys
    Except.ok (HashResult.single s)
  | ConfigResult.multiple cs => do
    let ss ← cs.mapM (fun _ => hashConfigDyn (PyVal.cfgList cs) excludeKeys)
    Except.ok (HashResult.multiple ss)

/-- Python enumerate over a list, starting at a given index. -/
def pyEnumFrom (i : ℕ) : List α → List (ℕ × α)
  | [] => []
  | x :: xs => (i, x) :: pyEnumFrom (i + 1) xs

/-- Python enumerate over a list. -/
def pyEnum (l : List α) : List (ℕ × α) := pyEnumFrom 0 l

/-- ParallelLauncher.launch, sequential branch (odin/exp/experimenter.py
line 122): with ncpu at most 1 the jobs run strictly sequentially in input
order, runs = the list of run_task(job)[1] for job in
enumerate(job_overrides).  A deterministic job is the function runTask from
the enumerate index and the override set to the job result (run_task also
receives the index through hydra.job.num). -/
def launchSeq (runTask : ℕ → α → β) (jobOverrides : List α) : List β :=
  (pyEnum jobOverrides).map (fun p => runTask p.1 p.2)

/-- The index-result pairs produced by run_task over the enumerated job
list, in input order. -/
def launchPairs (runTask : ℕ → α → β) (jobOverrides : List α) :
    List (ℕ × β) :=
  (pyEnum jobOverrides).map (fun p => (p.1, runTask p.1 p.2))

/-- ParallelLauncher.launch, parallel branch (odin/exp/experimenter.py
lines 114-120): the MPI pool yields the (index, result) pairs in an
arbitrary order (collected is any permutation of the pairs, stated in the
theorems below); sorted(...) re-sorts them - the indices are pairwise
distinct, so the Python tuple comparison only ever compares the indices -
and the second components are returned. -/
def launchPar (collected : List (ℕ × β)) : List β :=
  (collected.mergeSort (fun a b => Nat.ble a.1 b.1)).map Prod.snd

/-- Hook invocations and file writes observable during one
Experimenter._run (odin/exp/experimenter.py lines 383-424). -/
inductive RunStep where
  | saveConfigSnapshot
  | loadDataHook
  | loadModelHook
  | createModelHook
  | trainHook
  | saveMd5Manifest
deriving DecidableEq, Repr

/-- Fatal failures of Experimenter._run: the AssertionError raised on an
MD5 manifest mismatch (the CorruptionError of the spec) and the
RuntimeError raised when on_load_model returns None (the
RestoreContractError of the spec). -/
inductive RunError where
  | corruption
  | restoreContract
deriving DecidableEq, Repr

/-- Filesystem and collaborator state that Experimenter._run observes. -/
structure RunEnv where
  /-- model_path exists and os.listdir(model_path) is non-empty. -/
  modelDirNonEmpty : Bool
  /-- model.md5 manifest file exists. -/
  md5ManifestExists : Bool
  /-- contents of the manifest file, stripped. -/
  md5Saved : String
  /-- md5_folder(model_path) recomputed at restore time. -/
  md5Computed : String
  /-- the consistent_model flag of the Experimenter. -/
  consistentModel : Bool
  /-- whether the on_load_model hook returns a non-None model. -/
  loadModelReturnsSome : Bool
  /-- model_path exists and is non-empty after training. -/
  modelDirNonEmptyAfterTrain : Bool

/-- Experimenter._run (odin/exp/experimenter.py lines 383-424): snapshot
the config, load data, then create or resume the model - on resume, if a
prior MD5 manifest exists and consistent-model checking is enabled, the
recomputed MD5 of the model directory must equal the stored manifest
(AssertionError, the CorruptionError of the spec, otherwise, before
on_load_model is called), and on_load_model must return a model - then
train and refresh the manifest when the model directory has content.
Returns the steps performed, paired with the fatal error if one was
raised. -/
def runExperiment (env : RunEnv) : List RunStep × Option RunError :=
  let evs := [RunStep.saveConfigSnapshot, RunStep.loadDataHook]
  if env.modelDirNonEmpty then
    if env.md5ManifestExists && env.consistentModel then
      if env.md5Computed = env.md5Saved then
        if env.loadModelReturnsSome then
          (evs ++ [RunStep.loadModelHook, RunStep.trainHook] ++
            (if env.modelDirNonEmptyAfterTrain
             then [RunStep.saveMd5Manifest] else []), none)
        else (evs ++ [RunStep.loadModelHook], some RunError.restoreContract)
      else (evs, some RunError.corruption)
    else
      if env.loadModelReturnsSome then
        (evs ++ [RunStep.loadModelHook, RunStep.trainHook] ++
          (if env.modelDirNonEmptyAfterTrain
           then [RunStep.saveMd5Manifest] else []), none)
      else (evs ++ [RunStep.loadModelHook], some RunError.restoreContract)
  else
    (evs ++ [RunStep.createModelHook, RunStep.trainHook] ++
      (if env.modelDirNonEmptyAfterTrain
       then [RunStep.saveMd5Manifest] else []), none)

/-!  Lemmas and claim theorems. -/

/-- Claim C3: during a resuming run (model-state directory exists and is
non-empty), if a prior MD5 manifest exists, consistent-model checking is
enabled and the recomputed MD5 differs from the stored manifest, the run
fails fatally with the corruption error and the on_load_model restore hook
is never called. -/
theorem run_corruption_gate (env : RunEnv)
    (h1 : env.modelDirNonEmpty = true)
    (h2 : env.md5ManifestExists = true)
    (h3 : env.consistentModel = true)
    (h4 : env.md5Computed ≠ env.md5Saved) :
    (runExperiment env).2 = some RunError.corruption ∧
      RunStep.loadModelHook ∉ (runExperiment env).1 := by
  simp [runExperiment, h1, h2, h3, h4]

/-- Witness for run_corruption_gate at a concrete environment whose stored
and recomputed MD5 digests disagree. -/
theorem run_corruption_gate_witness :
    (runExperiment (RunEnv.mk true true "d41d8cd9" "ffffffff" true true
        true)).2 = some RunError.corruption ∧
      RunStep.loadModelHook ∉
        (runExperiment (RunEnv.mk true true "d41d8cd9" "ffffffff" true true
          true)).1 :=
  run_corruption_gate _ rfl rfl rfl (by decide)

/-- Claim C1: with at least max(2, min_epoch) recorded losses and no
progression window (progress_length at most 1, hence progression fixed at
1), early_stop returns TERMINATE exactly when generalization =
losses[-1] / min(losses[:-1]) - 1 is at least -abs(threshold); when
instead generalization is below that bound and negative, it returns BEST;
otherwise it returns no actionable signal. -/
theorem early_stop_spec (losses : List ℚ) (threshold : ℚ)
    (progressLength minEpoch : ℤ)
    (hlen : max 2 minEpoch ≤ (losses.length : ℤ))
    (hpl : progressLength ≤ 1) :
    (earlyStop losses threshold progressLength minEpoch =
        some Signal.TERMINATE ↔
      -|threshold| ≤ losses.getLastD 0 / listMin losses.dropLast - 1)
    ∧ (losses.getLastD 0 / listMin losses.dropLast - 1 < -|threshold| →
        losses.getLastD 0 / listMin losses.dropLast - 1 < 0 →
        earlyStop losses threshold progressLength minEpoch =
          some Signal.BEST)
    ∧ (losses.getLastD 0 / listMin losses.dropLast - 1 < -|threshold| →
        ¬ losses.getLastD 0 / listMin losses.dropLast - 1 < 0 →
        earlyStop losses threshold progressLength minEpoch = none) := by
  have hg : ¬ ((losses.length : ℤ) < max 2 minEpoch) := not_lt.mpr hlen
  have hp : ¬ ((1 : ℤ) < progressLength) := not_lt.mpr hpl
  simp only [earlyStop, hg, if_false, hp, div_one]
  rcases le_or_lt (-|threshold|) (losses.getLastD 0 /
      listMin losses.dropLast - 1) with h | h
  · rw [if_pos h]
    refine ⟨⟨fun _ => h, fun _ => rfl⟩, ?_, ?_⟩
    · intro h1 _
      exact absurd h (not_le.mpr h1)
    · intro h1 _
      exact absurd h (not_le.mpr h1)
  · rw [if_neg (not_le.mpr h)]
    have habs : (0 : ℚ) ≤ |threshold| := abs_nonneg threshold
    have hneg : losses.getLastD 0 / listMin losses.dropLast - 1 < 0 := by
      linarith
    rw [if_pos hneg]
    refine ⟨⟨fun hc => by simp at hc, fun hc => absurd hc (not_le.mpr h)⟩,
      fun _ _ => rfl, fun _ hc => absurd hneg hc⟩

/-- Witness for early_stop_spec: the two concrete scenarios of the claim,
losses [1, 0.9, 0.95] with threshold 0.01 terminate and losses
[1, 0.9, 0.5] mark a new best. -/
theorem early_stop_spec_witness :
    earlyStop [1, 9/10, 19/20] (1/100) 0 (-1) = some Signal.TERMINATE ∧
      earlyStop [1, 9/10, 1/2] (1/100) 0 (-1) = some Signal.BEST := by
  have habs : |(1/100 : ℚ)| = 1/100 := abs_of_pos (by norm_num)
  constructor
  · refine ((early_stop_spec [1, 9/10, 19/20] (1/100) 0 (-1)
      (by decide) (by decide)).1).mpr ?_
    norm_num [listMin, min_def, habs]
  · refine ((early_stop_spec [1, 9/10, 1/2] (1/100) 0 (-1)
      (by decide) (by decide)).2.1) ?_ ?_ <;>
      norm_num [listMin, min_def, habs]

/-- Counterexample to claim C9: with losses [1, 1/2] and a progression
window of 5 requested (more history than the 2 recorded values),
early_stop does not skip the progression check: the clamped window and the
requested length 5 give progression 10 * ((3/2) / (5 * (1/2)) - 1) = -4
and then error = (-1/2) / (-4) = 1/8 at least -threshold, so TERMINATE is
returned, whereas skipping the check (progression fixed at 1, as with
progress_length 1) returns BEST; no warning path exists in the source for
this case. -/
theorem early_stop_window_overrun_cex :
    earlyStop [1, 1/2] (1/1000) 5 (-1) = some Signal.TERMINATE ∧
      earlyStop [1, 1/2] (1/1000) 1 (-1) = some Signal.BEST := by
  have habs : |(1/1000 : ℚ)| = 1/1000 := abs_of_pos (by norm_num)
  constructor <;>
    norm_num [earlyStop, listMin, listSum, takeLast, min_def, habs]

/-- Claim C9 (amended): when the progression window requests more history
than recorded, early_stop does not raise: the Python slice clamps to the
whole loss history, but the progression statistic still divides by the
requested progress_length, and neither a warning nor a skip of the
progression check occurs. -/
theorem early_stop_window_overrun (losses : List ℚ) (threshold : ℚ)
    (progressLength minEpoch : ℤ)
    (hlen : max 2 minEpoch ≤ (losses.length : ℤ))
    (hexceed : (losses.length : ℤ) < progressLength) :
    earlyStop losses threshold progressLength minEpoch =
      (if -|threshold| ≤ (losses.getLastD 0 / listMin losses.dropLast - 1) /
          (10 * (listSum losses / ((progressLength : ℚ) * listMin losses)
            - 1)) then some Signal.TERMINATE
       else if losses.getLastD 0 / listMin losses.dropLast - 1 < 0 then
         some Signal.BEST
       else none) := by
  have hg : ¬ ((losses.length : ℤ) < max 2 minEpoch) := not_lt.mpr hlen
  have hp : (1 : ℤ) < progressLength := by omega
  have hclamp : takeLast progressLength.toNat losses = losses := by
    have : losses.length - progressLength.toNat = 0 := by omega
    simp [takeLast, this]
  simp only [earlyStop, hg, if_false, hp, if_true, hclamp]

/-- Witness for early_stop_window_overrun: losses [1, 1/2] with window 5
produce progression -4 and hence TERMINATE, through the amended claim. -/
theorem early_stop_window_overrun_witness :
    earlyStop [1, 1/2] (1/1000) 5 (-1) = some Signal.TERMINATE := by
  have h := early_stop_window_overrun [1, 1/2] (1/1000) 5 (-1)
    (by decide) (by decide)
  rw [h]
  have habs : |(1/1000 : ℚ)| = 1/1000 := abs_of_pos (by norm_num)
  norm_num [listMin, listSum, min_def, habs]

/-- Iteration index carried by a loop event (0 for the final callback,
which is emitted outside the loop). -/
def evIdx : TrainEvent → ℕ
  | TrainEvent.nanStop n => n
  | TrainEvent.validRun n => n
  | TrainEvent.callbackTick n => n
  | TrainEvent.finalCallback => 0

/-- Every event of the loop body carries an iteration index above the
n_iter counter the loop started from, and the final callback is never
emitted by the loop body itself. -/
theorem trainAux_mem {optimize : ℕ → FVal} {tm : ℕ → ℚ} {stopAt : ℕ → Bool}
    {maxIter : ℤ} {validFreq : ℕ} {validInterval : ℚ} {ton hvd : Bool} :
    ∀ (rem curIter nIter : ℕ) (lastValid : ℚ) (ev : TrainEvent),
      ev ∈ trainAux optimize tm stopAt maxIter validFreq validInterval ton
        hvd rem curIter nIter lastValid →
      nIter < evIdx ev ∧ ev ≠ TrainEvent.finalCallback := by
  intro rem
  induction rem with
  | zero =>
    intro curIter nIter lastValid ev h
    simp [trainAux] at h
  | succ rem ih =>
    intro curIter nIter lastValid ev h
    simp only [trainAux] at h
    split at h
    · simp at h
    · split at h
      · simp at h
        subst h
        exact ⟨Nat.lt_succ_self _, by simp [evIdx]⟩
      · split at h
        · split at h
          · rcases List.mem_append.mp h with h1 | h1
            · split at h1
              · simp at h1
                subst h1
                exact ⟨Nat.lt_succ_self _, by simp [evIdx]⟩
              · simp at h1
            · simp at h1
              subst h1
              exact ⟨Nat.lt_succ_self _, by simp [evIdx]⟩
          · rcases List.mem_append.mp h with h1 | h1
            · rcases List.mem_append.mp h1 with h2 | h2
              · split at h2
                · simp at h2
                  subst h2
                  exact ⟨Nat.lt_succ_self _, by simp [evIdx]⟩
                · simp at h2
              · simp at h2
                subst h2
                exact ⟨Nat.lt_succ_self _, by simp [evIdx]⟩
            · have := ih (curIter + 1) (nIter + 1) (tm (nIter + 1)) ev h1
              exact ⟨Nat.lt_of_succ_lt this.1, this.2⟩
        · have := ih (curIter + 1) (nIter + 1) lastValid ev h
          exact ⟨Nat.lt_of_succ_lt this.1, this.2⟩

/-- Membership in the event list of one validation tick. -/
theorem mem_tick_evs (hvd : Bool) (n : ℕ) (ev : TrainEvent)
    (h : ev ∈ ((if hvd then [TrainEvent.validRun n] else []) ++
      [TrainEvent.callbackTick n])) :
    evIdx ev = n ∧ ev ≠ TrainEvent.finalCallback := by
  cases hvd with
  | false =>
    simp at h
    subst h
    simp [evIdx]
  | true =>
    simp at h
    rcases h with h | h <;> subst h <;> simp [evIdx]

/-- A NaN termination event never belongs to a validation tick. -/
theorem nanStop_not_mem_tick (hvd : Bool) (n m : ℕ) :
    TrainEvent.nanStop m ∉ ((if hvd then [TrainEvent.validRun n] else []) ++
      [TrainEvent.callbackTick n]) := by
  cases hvd <;> simp

/-- When a NaN termination event occurs in the loop body, it is the last
event the loop emits. -/
theorem trainAux_nanStop_last {optimize : ℕ → FVal} {tm : ℕ → ℚ}
    {stopAt : ℕ → Bool} {maxIter : ℤ} {validFreq : ℕ} {validInterval : ℚ}
    {ton hvd : Bool} :
    ∀ (rem curIter nIter : ℕ) (lastValid : ℚ) (m : ℕ),
      TrainEvent.nanStop m ∈ trainAux optimize tm stopAt maxIter validFreq
        validInterval ton hvd rem curIter nIter lastValid →
      ∃ pre, trainAux optimize tm stopAt maxIter validFreq validInterval
        ton hvd rem curIter nIter lastValid =
          pre ++ [TrainEvent.nanStop m] := by
  intro rem
  induction rem with
  | zero =>
    intro curIter nIter lastValid m h
    simp [trainAux] at h
  | succ rem ih =>
    intro curIter nIter lastValid m h
    by_cases hmax : 0 < maxIter ∧ maxIter ≤ (curIter : ℤ)
    · simp [trainAux, hmax] at h
    · by_cases hguard : ((ton && (optimize (nIter + 1)).isNaN) ||
        (optimize (nIter + 1)).isInf) = true
      · simp only [trainAux, if_neg hmax, if_pos hguard] at h ⊢
        simp at h
        subst h
        exact ⟨[], rfl⟩
      · by_cases htick : (nIter + 1) % validFreq = 0 ∧
          validInterval ≤ tm (nIter + 1) - lastValid
        · by_cases hstop : stopAt (nIter + 1) = true
          · exfalso
            simp only [trainAux, if_neg hmax, if_neg hguard, if_pos htick,
              if_pos hstop] at h
            exact nanStop_not_mem_tick hvd (nIter + 1) m h
          · simp only [trainAux, if_neg hmax, if_neg hguard, if_pos htick,
              if_neg hstop] at h ⊢
            rcases List.mem_append.mp h with h1 | h1
            · exact absurd h1 (nanStop_not_mem_tick hvd (nIter + 1) m)
            · obtain ⟨pre, hpre⟩ :=
                ih (curIter + 1) (nIter + 1) (tm (nIter + 1)) m h1
              refine ⟨((if hvd then [TrainEvent.validRun (nIter + 1)]
                else []) ++ [TrainEvent.callbackTick (nIter + 1)]) ++ pre,
                ?_⟩
              rw [hpre]
              simp
        · simp only [trainAux, if_neg hmax, if_neg hguard,
            if_neg htick] at h ⊢
          exact ih (curIter + 1) (nIter + 1) lastValid m h

/-- Counterexample to claim C2: with the NaN/Inf guard disabled
(terminate_on_nan=False) and an optimize stub returning an infinite loss
at iteration 1 of a 3-batch run, the loop still halts at iteration 1 -
the guard flag only gates the isnan test, because the conjunction in
`terminate_on_nan and np.isnan(loss) or np.isinf(loss)` binds tighter
than the disjunction - contradicting the claim that with the guard
disabled training continues past a non-finite loss. -/
theorem fit_nan_guard_cex :
    trainRun (fun n => if n = 1 then FVal.inf else FVal.fin 0) (fun _ => 0)
        (fun _ => false) (-1) 1000 0 false false 3 0 0 =
      [TrainEvent.nanStop 1, TrainEvent.finalCallback] := by decide

/-- Claim C2 (amended): at any loop iteration that is not cut off by the
max_iter budget, the loop halts at that iteration with the NaN termination
message exactly when (terminate_on_nan and isnan(loss)) or isinf(loss)
holds - so with the guard enabled a NaN or infinite loss halts the loop,
while with the guard disabled a NaN loss does not halt it but an infinite
loss still does - and whenever a run of fit halts this way the callback is
invoked exactly once more (the final call) before fit returns. -/
theorem fit_nan_guard_spec (optimize : ℕ → FVal) (tm : ℕ → ℚ)
    (stopAt : ℕ → Bool) (maxIter : ℤ) (validFreq : ℕ) (validFreqRaw : ℤ)
    (validInterval : ℚ) (ton hvd : Bool) (rem curIter nIter : ℕ)
    (lastValid : ℚ)
    (hmax : ¬ (0 < maxIter ∧ maxIter ≤ (curIter : ℤ))) :
    (trainAux optimize tm stopAt maxIter validFreq validInterval ton hvd
        (rem + 1) curIter nIter lastValid =
          [TrainEvent.nanStop (nIter + 1)] ↔
      ((ton && (optimize (nIter + 1)).isNaN) ||
        (optimize (nIter + 1)).isInf) = true)
    ∧ ∀ (numBatches nIter0 : ℕ) (startTime : ℚ) (m : ℕ),
        TrainEvent.nanStop m ∈ trainRun optimize tm stopAt maxIter
          validFreqRaw validInterval ton hvd numBatches nIter0 startTime →
        ∃ pre, trainRun optimize tm stopAt maxIter validFreqRaw
          validInterval ton hvd numBatches nIter0 startTime =
            pre ++ [TrainEvent.nanStop m, TrainEvent.finalCallback] := by
  constructor
  · constructor
    · intro heq
      by_cases hguard : ((ton && (optimize (nIter + 1)).isNaN) ||
        (optimize (nIter + 1)).isInf) = true
      · exact hguard
      · exfalso
        have hmem : TrainEvent.nanStop (nIter + 1) ∈
            trainAux optimize tm stopAt maxIter validFreq validInterval
              ton hvd (rem + 1) curIter nIter lastValid := by
          rw [heq]
          simp
        by_cases htick : (nIter + 1) % validFreq = 0 ∧
          validInterval ≤ tm (nIter + 1) - lastValid
        · by_cases hstop : stopAt (nIter + 1) = true
          · simp only [trainAux, if_neg hmax, if_neg hguard, if_pos htick,
              if_pos hstop] at hmem
            exact nanStop_not_mem_tick hvd (nIter + 1) (nIter + 1) hmem
          · simp only [trainAux, if_neg hmax, if_neg hguard, if_pos htick,
              if_neg hstop] at hmem
            rcases List.mem_append.mp hmem with h1 | h1
            · exact nanStop_not_mem_tick hvd (nIter + 1) (nIter + 1) h1
            · have := (trainAux_mem rem (curIter + 1) (nIter + 1)
                (tm (nIter + 1)) _ h1).1
              simp [evIdx] at this
        · simp only [trainAux, if_neg hmax, if_neg hguard,
            if_neg htick] at hmem
          have := (trainAux_mem rem (curIter + 1) (nIter + 1)
            lastValid _ hmem).1
          simp [evIdx] at this
    · intro hguard
      simp only [trainAux, if_neg hmax, if_pos hguard]
  · intro numBatches nIter0 startTime m hm
    rw [trainRun] at hm
    rcases List.mem_append.mp hm with h1 | h1
    · obtain ⟨pre, hpre⟩ := trainAux_nanStop_last numBatches 0 nIter0
        startTime m h1
      refine ⟨pre, ?_⟩
      rw [trainRun, hpre]
      simp
    · simp at h1

/-- Witness for fit_nan_guard_spec: with the guard enabled and a NaN loss
at iteration 1, the loop body halts at iteration 1 with the NaN message. -/
theorem fit_nan_guard_spec_witness :
    trainAux (fun n => if n = 1 then FVal.nan else FVal.fin 0) (fun _ => 0)
        (fun _ => false) (-1) 1000 0 true false 3 0 0 0 =
      [TrainEvent.nanStop 1] :=
  ((fit_nan_guard_spec (fun n => if n = 1 then FVal.nan else FVal.fin 0)
    (fun _ => 0) (fun _ => false) (-1) 1000 1000 0 true false 2 0 0 0
    (by decide)).1).mpr (by decide)

/-- Expected event trace of the loop under valid_freq 10, valid_interval
0, finite losses and a constant clock: a validation plus callback tick at
every iteration divisible by 10 and nothing else. -/
def cadenceTrace : ℕ → ℕ → List TrainEvent
  | 0, _ => []
  | rem + 1, nIter =>
    (if (nIter + 1) % 10 = 0 then
      [TrainEvent.validRun (nIter + 1), TrainEvent.callbackTick (nIter + 1)]
     else []) ++ cadenceTrace rem (nIter + 1)

/-- Under valid_freq 10, valid_interval 0, finite losses, a validation set
and a constant clock, the loop body emits exactly the cadence trace. -/
theorem trainAux_cadence (ton : Bool) : ∀ (rem curIter nIter : ℕ),
    trainAux (fun _ => FVal.fin 0) (fun _ => 0) (fun _ => false) (-1) 10 0
        ton true rem curIter nIter 0 = cadenceTrace rem nIter := by
  intro rem
  induction rem with
  | zero =>
    intro curIter nIter
    simp [trainAux, cadenceTrace]
  | succ rem ih =>
    intro curIter nIter
    have hmax : ¬ (0 < (-1 : ℤ) ∧ (-1 : ℤ) ≤ (curIter : ℤ)) := by
      intro h
      exact absurd h.1 (by decide)
    have hguard : ¬ (((ton && (FVal.fin 0).isNaN) ||
        (FVal.fin 0).isInf) = true) := by
      simp [FVal.isNaN, FVal.isInf]
    by_cases hmod : (nIter + 1) % 10 = 0
    · have htick : (nIter + 1) % 10 = 0 ∧ (0 : ℚ) ≤ (fun _ : ℕ => (0 : ℚ))
          (nIter + 1) - 0 := ⟨hmod, by norm_num⟩
      simp only [trainAux, if_neg hmax, if_neg hguard, if_pos htick,
        cadenceTrace, if_pos hmod]
      simp [ih]
    · have htick : ¬ ((nIter + 1) % 10 = 0 ∧ (0 : ℚ) ≤ (fun _ : ℕ => (0 : ℚ))
          (nIter + 1) - 0) := fun h => hmod h.1
      simp only [trainAux, if_neg hmax, if_neg hguard, if_neg htick,
        cadenceTrace, if_neg hmod]
      simp [ih]

/-- Validation events of the cadence trace are exactly the iterations in
range that are divisible by 10. -/
theorem cadence_mem : ∀ (rem nIter n : ℕ),
    TrainEvent.validRun n ∈ cadenceTrace rem nIter ↔
      (n % 10 = 0 ∧ nIter + 1 ≤ n ∧ n ≤ nIter + rem) := by
  intro rem
  induction rem with
  | zero =>
    intro nIter n
    simp only [cadenceTrace, List.not_mem_nil, false_iff]
    omega
  | succ rem ih =>
    intro nIter n
    simp only [cadenceTrace, List.mem_append]
    by_cases hmod : (nIter + 1) % 10 = 0
    · rw [if_pos hmod]
      simp only [List.mem_cons, List.mem_singleton, ih,
        TrainEvent.validRun.injEq, List.not_mem_nil, or_false,
        reduceCtorEq]
      omega
    · rw [if_neg hmod]
      simp only [List.not_mem_nil, false_or, ih]
      omega

/-- Counterexample to claim C7: valid_freq does not default to 1 - the
signature of Trainer.fit defaults it to 1000 - and with the default and
valid_interval 0 a 3-iteration run triggers no validation at all, where
the claimed default of 1 would have validated at every iteration. -/
theorem fit_valid_default_cex :
    fitValidFreqDefault ≠ 1 ∧
      trainRun (fun _ => FVal.fin 0) (fun _ => 0) (fun _ => false) (-1)
        fitValidFreqDefault 0 true true 3 0 0 =
          [TrainEvent.finalCallback] := by
  constructor
  · decide
  · decide

/-- Claim C7 (amended): valid_freq defaults to 1000 (not 1); whenever
valid_interval is positive valid_freq is forced to 1; at any iteration not
cut off by max_iter and with a finite loss, validation runs exactly when
both triggers hold - the iteration count divides by the effective
valid_freq and at least valid_interval has elapsed since the previous
validation; and with valid_freq 10 and valid_interval 0 validation
triggers exactly at iterations 10, 20, 30, ... regardless of the clock. -/
theorem fit_valid_cadence_spec (vfRaw : ℤ) (vi : ℚ) :
    fitValidFreqDefault = 1000
    ∧ (0 < vi → effValidFreq vfRaw vi = 1)
    ∧ (∀ (optimize : ℕ → FVal) (tm : ℕ → ℚ) (stopAt : ℕ → Bool)
        (maxIter : ℤ) (validFreq : ℕ) (validInterval : ℚ) (ton : Bool)
        (rem curIter nIter : ℕ) (lastValid : ℚ),
        ¬ (0 < maxIter ∧ maxIter ≤ (curIter : ℤ)) →
        ((ton && (optimize (nIter + 1)).isNaN) ||
          (optimize (nIter + 1)).isInf) = false →
        ((trainAux optimize tm stopAt maxIter validFreq validInterval ton
            true (rem + 1) curIter nIter lastValid).head? =
              some (TrainEvent.validRun (nIter + 1)) ↔
          ((nIter + 1) % validFreq = 0 ∧
            validInterval ≤ tm (nIter + 1) - lastValid)))
    ∧ (∀ (ton : Bool) (nb n : ℕ),
        TrainEvent.validRun n ∈ trainRun (fun _ => FVal.fin 0) (fun _ => 0)
          (fun _ => false) (-1) 10 0 ton true nb 0 0 ↔
        (n % 10 = 0 ∧ 1 ≤ n ∧ n ≤ nb)) := by
  refine ⟨rfl, ?_, ?_, ?_⟩
  · intro h
    rw [effValidFreq, if_pos h]
  · intro optimize tm stopAt maxIter validFreq validInterval ton rem
      curIter nIter lastValid hmax hguard
    have hguard2 : ¬ (((ton && (optimize (nIter + 1)).isNaN) ||
        (optimize (nIter + 1)).isInf) = true) := by
      rw [hguard]
      simp
    by_cases htick : (nIter + 1) % validFreq = 0 ∧
      validInterval ≤ tm (nIter + 1) - lastValid
    · simp only [trainAux, if_neg hmax, if_neg hguard2, if_pos htick]
      by_cases hstop : stopAt (nIter + 1) = true
      · rw [if_pos hstop]
        simp [htick]
      · rw [if_neg hstop]
        simp [htick]
    · simp only [trainAux, if_neg hmax, if_neg hguard2, if_neg htick]
      constructor
      · intro hhead
        exfalso
        cases hl : trainAux optimize tm stopAt maxIter validFreq
          validInterval ton true rem (curIter + 1) (nIter + 1)
          lastValid with
        | nil =>
          rw [hl] at hhead
          simp at hhead
        | cons x xs =>
          rw [hl] at hhead
          simp at hhead
          have hx : x ∈ trainAux optimize tm stopAt maxIter validFreq
              validInterval ton true rem (curIter + 1) (nIter + 1)
              lastValid := by
            rw [hl]
            simp
          have := (trainAux_mem rem (curIter + 1) (nIter + 1)
            lastValid x hx).1
          rw [hhead] at this
          simp [evIdx] at this
      · intro h
        exact absurd h htick
  · intro ton nb n
    have heff : effValidFreq 10 0 = 10 := by decide
    rw [trainRun, heff, trainAux_cadence]
    simp only [List.mem_append, List.mem_singleton, cadence_mem,
      reduceCtorEq, or_false]
    omega

/-- Witness for fit_valid_cadence_spec: a positive valid_interval forces
the effective valid_freq to 1, and with valid_freq 10, valid_interval 0 a
25-iteration run validates at iteration 10. -/
theorem fit_valid_cadence_spec_witness :
    effValidFreq 5 1 = 1 ∧
      TrainEvent.validRun 10 ∈ trainRun (fun _ => FVal.fin 0) (fun _ => 0)
        (fun _ => false) (-1) 10 0 true true 25 0 0 := by
  refine ⟨(fit_valid_cadence_spec 5 1).2.1 (by norm_num), ?_⟩
  exact ((fit_valid_cadence_spec 5 1).2.2.2 true 25 10).mpr (by decide)

/-- Bind on a successful Except value. -/
theorem except_bind_ok {ε α β : Type} (a : α) (f : α → Except ε β) :
    (Except.ok a >>= f) = f a := rfl

/-- Bind on a failed Except value. -/
theorem except_bind_err {ε α β : Type} (e : ε) (f : α → Except ε β) :
    ((Except.error e : Except ε α) >>= f) = Except.error e := rfl

/-- A successful hash_config result always has exactly 8 characters: the
stand-in digest has 32 and the source truncates with [:8]. -/
theorem hashConfig_ok_length (cfg : CVal) (ex : List String) (s : String)
    (h : hashConfig cfg ex = Except.ok s) : s.length = 8 := by
  unfold hashConfig at h
  cases hrem : removeKeysF cfg ex with
  | error e =>
    rw [hrem, except_bind_err] at h
    exact absurd h (by simp)
  | ok d =>
    rw [hrem, except_bind_ok] at h
    have hs : s = String.mk ((md5Checksum (serialize d)).data.take 8) := by
      cases h
      rfl
    subst hs
    show (String.mk ((md5Checksum (serialize d)).data.take 8)).data.length = 8
    have h32 : (md5Checksum (serialize d)).data.length = 32 := by
      unfold md5Checksum
      simp
    simp [List.length_take, h32]

/-- Deleting a key path succeeds exactly when the path is present. -/
theorem removeDotted_isOk : ∀ (p : List String) (c : CVal),
    (∃ d, removeDotted p c = Except.ok d) ↔ pathPresent p c = true := by
  intro p
  induction p with
  | nil =>
    intro c
    simp [removeDotted, pathPresent]
  | cons k rest ih =>
    intro c
    cases rest with
    | nil =>
      cases c with
      | leaf s => simp [removeDotted, pathPresent]
      | node es =>
        simp only [removeDotted, pathPresent, delKey]
        by_cases h : es.any (fun q => q.1 = k)
        · rw [if_pos h, except_bind_ok]
          simp [h]
        · rw [if_neg h, except_bind_err]
          simp [h]
    | cons p1 rest2 =>
      cases c with
      | leaf s => simp [removeDotted, pathPresent]
      | node es =>
        simp only [removeDotted, pathPresent]
        cases hlk : lookupFirst es k with
        | none => simp
        | some v =>
          dsimp only
          cases hv : removeDotted (p1 :: rest2) v with
          | error e =>
            rw [except_bind_err]
            have hnp := (ih v).symm
            rw [hv] at hnp
            simp at hnp
            simp [hnp]
          | ok d =>
            rw [except_bind_ok]
            have hp : pathPresent (p1 :: rest2) v = true :=
              (ih v).mp ⟨d, hv⟩
            simp [hp]

/-- Counterexample to claim C5: excluding the absent key "b" from the
configuration with single key "a" raises KeyError - the del statement of
remove_keys does not tolerate a missing exclude-key path - so hash_config
raises instead of performing a no-op removal. -/
theorem hash_config_missing_key_cex :
    hashConfig (CVal.node [("a", CVal.leaf "1")]) ["b"] =
      Except.error PyErr.keyError := rfl

/-- Claim C5 (amended): hash_config stays pure - it deep-copies before
deleting, so the input is untouched - but a missing exclude-key path is
not tolerated: hash_config with a single exclude key succeeds (with an
8-character hash) exactly when the key path is present in the
configuration, and raises otherwise. -/
theorem hash_config_missing_key_spec (cfg : CVal) (k : String) :
    (∃ s, hashConfig cfg [k] = Except.ok s ∧ s.length = 8) ↔
      pathPresent (splitPath k) cfg = true := by
  have hfold : removeKeysF cfg [k] = removeDotted (splitPath k) cfg := by
    unfold removeKeysF
    cases h : removeDotted (splitPath k) cfg with
    | error e => simp [List.foldlM, h, except_bind_err]
    | ok d => simp [List.foldlM, h, except_bind_ok]
  constructor
  · rintro ⟨s, hs, _⟩
    unfold hashConfig at hs
    cases hrem : removeKeysF cfg [k] with
    | error e =>
      rw [hrem, except_bind_err] at hs
      exact absurd hs (by simp)
    | ok d =>
      rw [hfold] at hrem
      exact (removeDotted_isOk _ _).mp ⟨d, hrem⟩
  · intro hp
    obtain ⟨d, hd⟩ := (removeDotted_isOk _ _).mpr hp
    have hok : hashConfig cfg [k] =
        Except.ok (String.mk ((md5Checksum (serialize d)).data.take 8)) := by
      unfold hashConfig
      rw [hfold, hd, except_bind_ok]
    exact ⟨_, hok, hashConfig_ok_length cfg [k] _ hok⟩

/-- Lookup finds the marked entry when no earlier entry shares its key. -/
theorem lookupFirst_entry (pre post : List (String × CVal)) (k : String)
    (x : CVal) (hpre : ∀ q ∈ pre, q.1 ≠ k) :
    lookupFirst (pre ++ (k, x) :: post) k = some x := by
  induction pre with
  | nil => simp [lookupFirst]
  | cons e rest ih =>
    simp only [List.cons_append, lookupFirst]
    rw [if_neg (hpre e (by simp))]
    exact ih (fun q hq => hpre q (by simp [hq]))

/-- Lookup of a different key ignores the marked entry value. -/
theorem lookupFirst_entry_congr (pre post : List (String × CVal))
    (k k' : String) (x y : CVal) (hne : k' ≠ k) :
    lookupFirst (pre ++ (k, x) :: post) k' =
      lookupFirst (pre ++ (k, y) :: post) k' := by
  induction pre with
  | nil =>
    simp only [List.nil_append, lookupFirst]
    rw [if_neg (fun h => hne h.symm), if_neg (fun h => hne h.symm)]
  | cons e rest ih =>
    simp only [List.cons_append, lookupFirst]
    by_cases he : e.1 = k'
    · rw [if_pos he, if_pos he]
    · rw [if_neg he, if_neg he]
      exact ih

/-- Replacing at the marked key rewrites exactly the marked entry. -/
theorem replaceFirst_entry (pre post : List (String × CVal)) (k : String)
    (x v : CVal) (hpre : ∀ q ∈ pre, q.1 ≠ k) :
    replaceFirst (pre ++ (k, x) :: post) k v = pre ++ (k, v) :: post := by
  induction pre with
  | nil => simp [replaceFirst]
  | cons e rest ih =>
    simp only [List.cons_append, replaceFirst]
    rw [if_neg (hpre e (by simp))]
    simp only [List.append_eq]
    rw [ih (fun q hq => hpre q (by simp [hq]))]

/-- A list without the key is unchanged by replaceFirst. -/
theorem replaceFirst_no_key (es : List (String × CVal)) (k' : String)
    (v : CVal) (h : ∀ q ∈ es, q.1 ≠ k') : replaceFirst es k' v = es := by
  induction es with
  | nil => rfl
  | cons e rest ih =>
    simp only [replaceFirst]
    rw [if_neg (h e (by simp))]
    rw [ih (fun q hq => h q (by simp [hq]))]

/-- Replacing a key different from the marked one keeps the marked entry
and touches the same places on both sides of the mark. -/
theorem replaceFirst_entry_ne (pre post : List (String × CVal))
    (k k' : String) (x v : CVal) (hne : k' ≠ k) :
    replaceFirst (pre ++ (k, x) :: post) k' v =
      replaceFirst pre k' v ++ (k, x) ::
        (if pre.any (fun q => q.1 = k') then post
         else replaceFirst post k' v) := by
  induction pre with
  | nil =>
    simp only [List.nil_append, replaceFirst, List.any_nil]
    rw [if_neg (fun h => hne h.symm)]
    simp
  | cons e rest ih =>
    simp only [List.cons_append, replaceFirst, List.any_cons]
    by_cases he : e.1 = k'
    · simp [he, List.append_eq]
    · simp only [he, if_false, decide_eq_true_eq, if_neg he, List.append_eq,
        ih]
      by_cases hr : (rest.any fun q => decide (q.1 = k')) = true
      · simp [hr]
      · simp [hr]

/-- replaceFirst never introduces a key that is foreign to the list. -/
theorem replaceFirst_keeps_keys (es : List (String × CVal))
    (k k' : String) (v : CVal) (hne : k' ≠ k)
    (h : ∀ q ∈ es, q.1 ≠ k) : ∀ q ∈ replaceFirst es k' v, q.1 ≠ k := by
  induction es with
  | nil => simp [replaceFirst]
  | cons e rest ih =>
    simp only [replaceFirst]
    by_cases he : e.1 = k'
    · rw [if_pos he]
      intro q hq
      rcases List.mem_cons.mp hq with h1 | h1
      · rw [h1]
        exact hne
      · exact h q (by simp [h1])
    · rw [if_neg he]
      intro q hq
      rcases List.mem_cons.mp hq with h1 | h1
      · rw [h1]
        exact h e (by simp)
      · exact ih (fun q hq => h q (by simp [hq])) q h1

/-- The membership test of del does not look at entry values. -/
theorem any_entry_congr (pre post : List (String × CVal)) (k k' : String)
    (x y : CVal) :
    (pre ++ (k, x) :: post).any (fun q => q.1 = k') =
      (pre ++ (k, y) :: post).any (fun q => q.1 = k') := by
  simp [List.any_append]

/-- Filtering out a key removes the marked entry when the key matches. -/
theorem filter_entry (pre post : List (String × CVal)) (k : String)
    (x : CVal) :
    (pre ++ (k, x) :: post).filter (fun q => ¬ q.1 = k) =
      pre.filter (fun q => ¬ q.1 = k) ++
        post.filter (fun q => ¬ q.1 = k) := by
  simp [List.filter_append]

/-- Filtering out a different key keeps the marked entry. -/
theorem filter_entry_ne (pre post : List (String × CVal)) (k k' : String)
    (x : CVal) (hne : k' ≠ k) :
    (pre ++ (k, x) :: post).filter (fun q => ¬ q.1 = k') =
      pre.filter (fun q => ¬ q.1 = k') ++ (k, x) ::
        post.filter (fun q => ¬ q.1 = k') := by
  have hkk : ¬ k = k' := fun h => hne h.symm
  simp [List.filter_append, List.filter_cons, hkk]

/-- The differ path of related configurations is never empty. -/
theorem differAtLeaf_ne_nil {p : List String} {c1 c2 : CVal}
    (h : DifferAtLeaf p c1 c2) : p ≠ [] := by
  cases h <;> simp

/-- Deleting the differ path from two configurations that differ only in
the scalar at that path succeeds on both and produces the same result. -/
theorem differ_removeDotted_eq {p : List String} {c1 c2 : CVal}
    (h : DifferAtLeaf p c1 c2) :
    ∃ d, removeDotted p c1 = Except.ok d ∧
      removeDotted p c2 = Except.ok d := by
  induction h with
  | here k pre post s1 s2 hpre =>
    refine ⟨CVal.node (pre.filter (fun q => ¬ q.1 = k) ++
      post.filter (fun q => ¬ q.1 = k)), ?_, ?_⟩
    · simp only [removeDotted, delKey]
      rw [if_pos (by simp [List.any_append]), except_bind_ok,
        filter_entry]
    · simp only [removeDotted, delKey]
      rw [if_pos (by simp [List.any_append]), except_bind_ok,
        filter_entry]
  | there k p0 pre post w1 w2 hpre hsub ih =>
    obtain ⟨d, hd1, hd2⟩ := ih
    obtain ⟨q1, qrest, rfl⟩ :=
      List.exists_cons_of_ne_nil (differAtLeaf_ne_nil hsub)
    refine ⟨CVal.node (pre ++ (k, d) :: post), ?_, ?_⟩
    · simp only [removeDotted]
      rw [lookupFirst_entry pre post k w1 hpre]
      dsimp only
      rw [hd1, except_bind_ok, replaceFirst_entry pre post k w1 d hpre]
    · simp only [removeDotted]
      rw [lookupFirst_entry pre post k w2 hpre]
      dsimp only
      rw [hd2, except_bind_ok, replaceFirst_entry pre post k w2 d hpre]

/-- Deleting any key path from a scalar raises: attribute access and del
are not defined on it. -/
theorem removeDotted_leaf : ∀ (p : List String) (s : String),
    removeDotted p (CVal.leaf s) = Except.error PyErr.typeError := by
  intro p s
  cases p with
  | nil => rfl
  | cons a rest =>
    cases rest with
    | nil => rfl
    | cons b rest2 => rfl

/-- Deleting any key path from two configurations that differ only in the
scalar at one path either fails identically on both, or succeeds on both
with results that again differ at most in that scalar. -/
theorem removeDotted_differ : ∀ (pd : List String) {p : List String}
    {c1 c2 : CVal}, DifferAtLeaf p c1 c2 →
    (∃ e, removeDotted pd c1 = Except.error e ∧
      removeDotted pd c2 = Except.error e) ∨
    (∃ d1 d2, removeDotted pd c1 = Except.ok d1 ∧
      removeDotted pd c2 = Except.ok d2 ∧
      (DifferAtLeaf p d1 d2 ∨ d1 = d2)) := by
  intro pd
  induction pd with
  | nil =>
    intro p c1 c2 h
    exact Or.inl ⟨PyErr.typeError, rfl, rfl⟩
  | cons k' rest ih =>
    intro p c1 c2 h
    cases rest with
    | nil =>
      cases h with
      | here k pre post s1 s2 hpre =>
        by_cases hkk : k' = k
        · subst hkk
          right
          refine ⟨CVal.node (pre.filter (fun q => ¬ q.1 = k') ++
            post.filter (fun q => ¬ q.1 = k')), _, ?_, ?_, Or.inr rfl⟩ <;>
            · simp only [removeDotted, delKey]
              rw [if_pos (by simp [List.any_append]), except_bind_ok,
                filter_entry]
        · by_cases hany : (pre ++ (k, CVal.leaf s1) :: post).any
            (fun q => q.1 = k') = true
          · right
            refine ⟨CVal.node (pre.filter (fun q => ¬ q.1 = k') ++
                (k, CVal.leaf s1) :: post.filter (fun q => ¬ q.1 = k')),
              CVal.node (pre.filter (fun q => ¬ q.1 = k') ++
                (k, CVal.leaf s2) :: post.filter (fun q => ¬ q.1 = k')),
              ?_, ?_, Or.inl ?_⟩
            · simp only [removeDotted, delKey]
              rw [if_pos hany, except_bind_ok, filter_entry_ne _ _ _ _ _
                hkk]
            · simp only [removeDotted, delKey]
              rw [if_pos ((any_entry_congr pre post k k' (CVal.leaf s2)
                (CVal.leaf s1)).trans hany), except_bind_ok,
                filter_entry_ne _ _ _ _ _ hkk]
            · exact DifferAtLeaf.here k _ _ s1 s2
                (fun q hq => hpre q (List.mem_of_mem_filter hq))
          · left
            refine ⟨PyErr.keyError, ?_, ?_⟩
            · simp only [removeDotted, delKey]
              rw [if_neg hany, except_bind_err]
            · simp only [removeDotted, delKey]
              rw [if_neg (fun hc => hany ((any_entry_congr pre post k k'
                (CVal.leaf s1) (CVal.leaf s2)).trans hc)), except_bind_err]
      | there k p0 pre post w1 w2 hpre hsub =>
        by_cases hkk : k' = k
        · subst hkk
          right
          refine ⟨CVal.node (pre.filter (fun q => ¬ q.1 = k') ++
            post.filter (fun q => ¬ q.1 = k')), _, ?_, ?_, Or.inr rfl⟩ <;>
            · simp only [removeDotted, delKey]
              rw [if_pos (by simp [List.any_append]), except_bind_ok,
                filter_entry]
        · by_cases hany : (pre ++ (k, w1) :: post).any
            (fun q => q.1 = k') = true
          · right
            refine ⟨CVal.node (pre.filter (fun q => ¬ q.1 = k') ++
                (k, w1) :: post.filter (fun q => ¬ q.1 = k')),
              CVal.node (pre.filter (fun q => ¬ q.1 = k') ++
                (k, w2) :: post.filter (fun q => ¬ q.1 = k')),
              ?_, ?_, Or.inl ?_⟩
            · simp only [removeDotted, delKey]
              rw [if_pos hany, except_bind_ok, filter_entry_ne _ _ _ _ _
                hkk]
            · simp only [removeDotted, delKey]
              rw [if_pos ((any_entry_congr pre post k k' w2 w1).trans
                hany), except_bind_ok, filter_entry_ne _ _ _ _ _ hkk]
            · exact DifferAtLeaf.there k p0 _ _ w1 w2
                (fun q hq => hpre q (List.mem_of_mem_filter hq)) hsub
          · left
            refine ⟨PyErr.keyError, ?_, ?_⟩
            · simp only [removeDotted, delKey]
              rw [if_neg hany, except_bind_err]
            · simp only [removeDotted, delKey]
              rw [if_neg (fun hc => hany ((any_entry_congr pre post k k'
                w1 w2).trans hc)), except_bind_err]
    | cons r1 rrest =>
      cases h with
      | here k pre post s1 s2 hpre =>
        by_cases hkk : k' = k
        · subst hkk
          left
          refine ⟨PyErr.typeError, ?_, ?_⟩
          · simp only [removeDotted]
            rw [lookupFirst_entry pre post k' (CVal.leaf s1) hpre]
            dsimp only
            rw [removeDotted_leaf, except_bind_err]
          · simp only [removeDotted]
            rw [lookupFirst_entry pre post k' (CVal.leaf s2) hpre]
            dsimp only
            rw [removeDotted_leaf, except_bind_err]
        · cases hL : lookupFirst (pre ++ (k, CVal.leaf s1) :: post) k' with
          | none =>
            left
            refine ⟨PyErr.keyError, ?_, ?_⟩
            · simp only [removeDotted]
              rw [hL]
            · simp only [removeDotted]
              rw [← lookupFirst_entry_congr pre post k k' (CVal.leaf s1)
                (CVal.leaf s2) hkk, hL]
          | some u =>
            have hL2 : lookupFirst (pre ++ (k, CVal.leaf s2) :: post) k' =
                some u := by
              rw [← lookupFirst_entry_congr pre post k k' (CVal.leaf s1)
                (CVal.leaf s2) hkk, hL]
            cases hu : removeDotted (r1 :: rrest) u with
            | error e =>
              left
              refine ⟨e, ?_, ?_⟩
              · simp only [removeDotted]
                rw [hL]
                dsimp only
                rw [hu, except_bind_err]
              · simp only [removeDotted]
                rw [hL2]
                dsimp only
                rw [hu, except_bind_err]
            | ok d =>
              right
              refine ⟨CVal.node (replaceFirst pre k' d ++
                  (k, CVal.leaf s1) :: (if pre.any (fun q => q.1 = k')
                    then post else replaceFirst post k' d)),
                CVal.node (replaceFirst pre k' d ++
                  (k, CVal.leaf s2) :: (if pre.any (fun q => q.1 = k')
                    then post else replaceFirst post k' d)),
                ?_, ?_, Or.inl ?_⟩
              · simp only [removeDotted]
                rw [hL]
                dsimp only
                rw [hu, except_bind_ok,
                  replaceFirst_entry_ne pre post k k' (CVal.leaf s1) d hkk]
              · simp only [removeDotted]
                rw [hL2]
                dsimp only
                rw [hu, except_bind_ok,
                  replaceFirst_entry_ne pre post k k' (CVal.leaf s2) d hkk]
              · exact DifferAtLeaf.here k _ _ s1 s2
                  (replaceFirst_keeps_keys pre k k' d hkk hpre)
      | there k p0 pre post w1 w2 hpre hsub =>
        by_cases hkk : k' = k
        · subst hkk
          rcases ih hsub with ⟨e, he1, he2⟩ | ⟨d1, d2, hd1, hd2, hrel⟩
          · left
            refine ⟨e, ?_, ?_⟩
            · simp only [removeDotted]
              rw [lookupFirst_entry pre post k' w1 hpre]
              dsimp only
              rw [he1, except_bind_err]
            · simp only [removeDotted]
              rw [lookupFirst_entry pre post k' w2 hpre]
              dsimp only
              rw [he2, except_bind_err]
          · right
            refine ⟨CVal.node (pre ++ (k', d1) :: post),
              CVal.node (pre ++ (k', d2) :: post), ?_, ?_, ?_⟩
            · simp only [removeDotted]
              rw [lookupFirst_entry pre post k' w1 hpre]
              dsimp only
              rw [hd1, except_bind_ok,
                replaceFirst_entry pre post k' w1 d1 hpre]
            · simp only [removeDotted]
              rw [lookupFirst_entry pre post k' w2 hpre]
              dsimp only
              rw [hd2, except_bind_ok,
                replaceFirst_entry pre post k' w2 d2 hpre]
            · rcases hrel with hrel | hrel
              · exact Or.inl (DifferAtLeaf.there k' p0 pre post d1 d2
                  hpre hrel)
              · subst hrel
                exact Or.inr rfl
        · cases hL : lookupFirst (pre ++ (k, w1) :: post) k' with
          | none =>
            left
            refine ⟨PyErr.keyError, ?_, ?_⟩
            · simp only [removeDotted]
              rw [hL]
            · simp only [removeDotted]
              rw [← lookupFirst_entry_congr pre post k k' w1 w2 hkk, hL]
          | some u =>
            have hL2 : lookupFirst (pre ++ (k, w2) :: post) k' =
                some u := by
              rw [← lookupFirst_entry_congr pre post k k' w1 w2 hkk, hL]
            cases hu : removeDotted (r1 :: rrest) u with
            | error e =>
              left
              refine ⟨e, ?_, ?_⟩
              · simp only [removeDotted]
                rw [hL]
                dsimp only
                rw [hu, except_bind_err]
              · simp only [removeDotted]
                rw [hL2]
                dsimp only
                rw [hu, except_bind_err]
            | ok d =>
              right
              refine ⟨CVal.node (replaceFirst pre k' d ++
                  (k, w1) :: (if pre.any (fun q => q.1 = k')
                    then post else replaceFirst post k' d)),
                CVal.node (replaceFirst pre k' d ++
                  (k, w2) :: (if pre.any (fun q => q.1 = k')
                    then post else replaceFirst post k' d)),
                ?_, ?_, Or.inl ?_⟩
              · simp only [removeDotted]
                rw [hL]
                dsimp only
                rw [hu, except_bind_ok,
                  replaceFirst_entry_ne pre post k k' w1 d hkk]
              · simp only [removeDotted]
                rw [hL2]
                dsimp only
                rw [hu, except_bind_ok,
                  replaceFirst_entry_ne pre post k k' w2 d hkk]
              · exact DifferAtLeaf.there k p0 _ _ w1 w2
                  (replaceFirst_keeps_keys pre k k' d hkk hpre) hsub

/-- One step of the exclude-key fold of remove_keys. -/
theorem removeKeysF_cons (c : CVal) (k0 : String) (rest : List String) :
    removeKeysF c (k0 :: rest) =
      (removeDotted (splitPath k0) c) >>= fun d => removeKeysF d rest :=
  rfl

/-- Removing an exclude-key list containing the differ key erases the
difference: the whole removal behaves identically on both
configurations. -/
theorem removeKeysF_differ : ∀ (ex : List String) (k : String)
    {c1 c2 : CVal}, k ∈ ex → DifferAtLeaf (splitPath k) c1 c2 →
    removeKeysF c1 ex = removeKeysF c2 ex := by
  intro ex
  induction ex with
  | nil =>
    intro k c1 c2 hk
    exact absurd hk (List.not_mem_nil k)
  | cons k0 rest ih =>
    intro k c1 c2 hk hd
    rw [removeKeysF_cons, removeKeysF_cons]
    by_cases hkk : k0 = k
    · subst hkk
      obtain ⟨d, hd1, hd2⟩ := differ_removeDotted_eq hd
      rw [hd1, hd2]
    · have hk2 : k ∈ rest := by
        rcases List.mem_cons.mp hk with h | h
        · exact absurd h.symm hkk
        · exact h
      rcases removeDotted_differ (splitPath k0) hd with
        ⟨e, he1, he2⟩ | ⟨d1, d2, hd1, hd2, hrel⟩
      · rw [he1, he2]
      · rw [hd1, hd2, except_bind_ok, except_bind_ok]
        rcases hrel with hrel | hrel
        · exact ih k hk2 hrel
        · rw [hrel]

/-- Claim C4: two configurations identical except for the scalar stored at
a key listed in the exclude set hash to the same value, and any successful
hash is an 8-character string. -/
theorem hash_config_exclusion (ex : List String) (k : String)
    (c1 c2 : CVal) (hk : k ∈ ex)
    (hdiff : DifferAtLeaf (splitPath k) c1 c2) :
    hashConfig c1 ex = hashConfig c2 ex ∧
      ∀ s, hashConfig c1 ex = Except.ok s → s.length = 8 := by
  have hrm : removeKeysF c1 ex = removeKeysF c2 ex :=
    removeKeysF_differ ex k hk hdiff
  constructor
  · unfold hashConfig
    rw [hrm]
  · exact fun s hs => hashConfig_ok_length c1 ex s hs

/-- Witness for hash_config_exclusion: two concrete configurations that
differ only in the excluded seed value produce the same fingerprint. -/
theorem hash_config_exclusion_witness :
    hashConfig (CVal.node [("seed", CVal.leaf "1"), ("lr", CVal.leaf "0.1")])
        ["seed"] =
      hashConfig (CVal.node [("seed", CVal.leaf "2"),
        ("lr", CVal.leaf "0.1")]) ["seed"] :=
  (hash_config_exclusion ["seed"] "seed" _ _ (by simp)
    (DifferAtLeaf.here "seed" [] [("lr", CVal.leaf "0.1")] "1" "2"
      (by simp))).1

/-- Membership in the product: a tuple belongs to the itertools product
exactly when it picks one element from each input list, position by
position. -/
theorem mem_listProduct {β : Type} : ∀ (ls : List (List β)) (t : List β),
    t ∈ listProduct ls ↔ List.Forall₂ (fun x l => x ∈ l) t ls := by
  intro ls
  induction ls with
  | nil =>
    intro t
    simp [listProduct, List.forall₂_nil_right_iff]
  | cons l ls ih =>
    intro t
    simp only [listProduct, List.mem_flatMap, List.mem_map]
    constructor
    · rintro ⟨x, hx, t', ht', rfl⟩
      exact List.Forall₂.cons hx ((ih t').mp ht')
    · intro h
      cases h with
      | cons hx ht => exact ⟨_, hx, _, (ih _).mpr ht, rfl⟩

/-- Length of a flatMap with constant block length. -/
theorem length_flatMap_const {β γ : Type} (g : β → List γ) (n : ℕ)
    (hg : ∀ x, (g x).length = n) :
    ∀ l : List β, (l.flatMap g).length = l.length * n := by
  intro l
  induction l with
  | nil => simp
  | cons x xs ih =>
    simp only [List.flatMap_cons, List.length_append, ih, hg,
      List.length_cons]
    rw [Nat.add_mul, Nat.one_mul, Nat.add_comm]

/-- The product has exactly one tuple per combination: its length is the
product of the input list lengths. -/
theorem length_listProduct {β : Type} : ∀ ls : List (List β),
    (listProduct ls).length = (ls.map List.length).prod := by
  intro ls
  induction ls with
  | nil => rfl
  | cons l ls ih =>
    simp only [listProduct, List.map_cons, List.prod_cons]
    rw [length_flatMap_const _ ((ls.map List.length).prod)
      (fun x => by simp [ih]) l]

/-- The known-key check of parse_overrides succeeds on a list of overrides
whose keys are all known, and produces the per-value single overrides. -/
theorem mapM_overrides_ok (ks : List String) :
    ∀ (ovr : List (String × String)), (∀ kv ∈ ovr, kv.1 ∈ ks) →
    (ovr.mapM (fun kv =>
        if kv.1 ∈ ks then Except.ok (overrideValues kv)
        else Except.error PyErr.assertionError) :
      Except PyErr (List (List (String × String)))) =
      Except.ok (ovr.map overrideValues) := by
  intro ovr
  induction ovr with
  | nil => intro h; rfl
  | cons kv rest ih =>
    intro h
    rw [List.mapM_cons, if_pos (h kv (by simp)),
      ih (fun q hq => h q (by simp [hq]))]
    rfl

/-- parse_overrides on known keys returns exactly the product of the
per-value splits. -/
theorem parseOverrides_ok (ks : List String)
    (ovr : List (String × String)) (h : ∀ kv ∈ ovr, kv.1 ∈ ks) :
    parseOverrides ks ovr =
      Except.ok (listProduct (ovr.map overrideValues)) := by
  unfold parseOverrides
  rw [mapM_overrides_ok ks ovr h, except_bind_ok]

/-- Claim C6: parse_overrides splits each multi-valued override into
per-value single overrides and returns exactly the Cartesian product
across all keys, one tuple per combination in product order; a tuple
belongs to the result exactly when it picks one value per key, and the
number of tuples is the product of the value counts; load_configuration
applies each tuple and returns a single configuration when only one
combination results, else the list in product order - in particular the
overrides a=1,2 and b=x,y yield exactly the four combinations. -/
theorem parse_overrides_product_spec :
    (∀ (ks : List String) (ovr : List (String × String)),
      (∀ kv ∈ ovr, kv.1 ∈ ks) →
      parseOverrides ks ovr =
        Except.ok (listProduct (ovr.map overrideValues)))
    ∧ (∀ (ls : List (List (String × String))) (t : List (String × String)),
        t ∈ listProduct ls ↔ List.Forall₂ (fun x l => x ∈ l) t ls)
    ∧ (∀ ls : List (List (String × String)),
        (listProduct ls).length = (ls.map List.length).prod)
    ∧ (∀ loadCfg : List (String × String) → CVal,
        loadConfiguration loadCfg ["a", "b"] [("a", "1,2"), ("b", "x,y")] =
          Except.ok (ConfigResult.multiple
            [loadCfg [("a", "1"), ("b", "x")],
             loadCfg [("a", "1"), ("b", "y")],
             loadCfg [("a", "2"), ("b", "x")],
             loadCfg [("a", "2"), ("b", "y")]]))
    ∧ (∀ loadCfg : List (String × String) → CVal,
        loadConfiguration loadCfg ["a"] [("a", "1")] =
          Except.ok (ConfigResult.single (loadCfg [("a", "1")]))) := by
  refine ⟨parseOverrides_ok, mem_listProduct, length_listProduct, ?_, ?_⟩
  · intro loadCfg
    rfl
  · intro loadCfg
    rfl

/-- Witness for parse_overrides_product_spec: the product of a=1,2 with
b=x,y is exactly the four expected override tuples. -/
theorem parse_overrides_product_spec_witness :
    parseOverrides ["a", "b"] [("a", "1,2"), ("b", "x,y")] =
      Except.ok [[("a", "1"), ("b", "x")], [("a", "1"), ("b", "y")],
        [("a", "2"), ("b", "x")], [("a", "2"), ("b", "y")]] := by
  have h := parse_overrides_product_spec.1 ["a", "b"]
    [("a", "1,2"), ("b", "x,y")] (by decide)
  rw [h]
  rfl

/-- Splitting a string never yields an empty list of pieces. -/
theorem splitChar_ne_nil (sep : Char) : ∀ (l acc : List Char),
    splitChar sep l acc ≠ [] := by
  intro l
  induction l with
  | nil =>
    intro acc
    simp [splitChar]
  | cons c cs ih =>
    intro acc
    simp only [splitChar]
    split
    · simp
    · exact ih _

/-- The product of non-empty lists is non-empty. -/
theorem listProduct_ne_nil {β : Type} : ∀ (ls : List (List β)),
    (∀ l ∈ ls, l ≠ []) → listProduct ls ≠ [] := by
  intro ls
  induction ls with
  | nil =>
    intro _
    simp [listProduct]
  | cons l ls ih =>
    intro h
    obtain ⟨x, xs, rfl⟩ := List.exists_cons_of_ne_nil (h l (by simp))
    simp only [listProduct, List.flatMap_cons]
    intro hcontra
    have hsplit := List.append_eq_nil.mp hcontra
    exact ih (fun q hq => h q (by simp [hq]))
      (List.map_eq_nil_iff.mp hsplit.1)

/-- Claim C10: when the overrides resolve to more than one configuration,
Experimenter.hash raises AssertionError - its multi-configuration branch
passes the whole configuration list, not each element, to hash_config,
whose isinstance check rejects a list - and any successful result of hash
is a single 8-character hash string. -/
theorem hash_multirun_spec (loadCfg : List (String × String) → CVal)
    (ks ex : List String) (ovr : List (String × String))
    (hkeys : ∀ kv ∈ ovr, kv.1 ∈ ks) :
    (2 ≤ (listProduct (ovr.map overrideValues)).length →
      hashMethod loadCfg ks ex ovr = Except.error PyErr.assertionError)
    ∧ (∀ r, hashMethod loadCfg ks ex ovr = Except.ok r →
        ∃ s, r = HashResult.single s ∧ s.length = 8) := by
  have hload : loadConfiguration loadCfg ks ovr = Except.ok
      (match (listProduct (ovr.map overrideValues)).map loadCfg with
       | [c] => ConfigResult.single c
       | cs => ConfigResult.multiple cs) := by
    unfold loadConfiguration
    rw [parseOverrides_ok ks ovr hkeys, except_bind_ok]
  have hne : listProduct (ovr.map overrideValues) ≠ [] := by
    refine listProduct_ne_nil _ (fun l hl => ?_)
    obtain ⟨kv, _, rfl⟩ := List.mem_map.mp hl
    unfold overrideValues
    intro hmap
    exact splitChar_ne_nil ',' kv.2.data []
      (List.map_eq_nil_iff.mp hmap)
  constructor
  · intro h2
    unfold hashMethod
    rw [hload, except_bind_ok]
    cases hm : (listProduct (ovr.map overrideValues)).map loadCfg with
    | nil =>
      exfalso
      have := congrArg List.length hm
      simp only [List.length_map, List.length_nil] at this
      omega
    | cons a tail =>
      cases tail with
      | nil =>
        exfalso
        have := congrArg List.length hm
        simp only [List.length_map, List.length_cons,
          List.length_nil] at this
        omega
      | cons b rest =>
        dsimp only
        rw [List.mapM_cons,
          show hashConfigDyn (PyVal.cfgList (a :: b :: rest)) ex =
            Except.error PyErr.assertionError from rfl,
          except_bind_err, except_bind_err]
  · intro r hr
    unfold hashMethod at hr
    rw [hload, except_bind_ok] at hr
    cases hm : (listProduct (ovr.map overrideValues)).map loadCfg with
    | nil => exact absurd (List.map_eq_nil_iff.mp hm) hne
    | cons a tail =>
      cases tail with
      | nil =>
        rw [hm] at hr
        dsimp only at hr
        cases hc : hashConfig a ex with
        | error e =>
          rw [hc, except_bind_err] at hr
          exact absurd hr (by simp)
        | ok s =>
          rw [hc, except_bind_ok] at hr
          have hrs : HashResult.single s = r := by
            have := (Except.ok.injEq _ _).mp hr
            exact this
          exact ⟨s, hrs.symm, hashConfig_ok_length a ex s hc⟩
      | cons b rest =>
        rw [hm] at hr
        dsimp only at hr
        rw [List.mapM_cons,
          show hashConfigDyn (PyVal.cfgList (a :: b :: rest)) ex =
            Except.error PyErr.assertionError from rfl,
          except_bind_err, except_bind_err] at hr
        exact absurd hr (by simp)

/-- Witness for hash_multirun_spec: the multi-valued override a=1,2
resolves to two configurations and hash raises AssertionError. -/
theorem hash_multirun_spec_witness :
    hashMethod (fun _ => CVal.node []) ["a"] [] [("a", "1,2")] =
      Except.error PyErr.assertionError :=
  (hash_multirun_spec (fun _ => CVal.node []) ["a"] [] [("a", "1,2")]
    (by decide)).1 (by decide)

/-- Every pair produced by enumerate from index i has index at least i. -/
theorem pyEnumFrom_mem_fst {β : Type _} : ∀ (l : List β) (i : ℕ)
    (q : ℕ × β), q ∈ pyEnumFrom i l → i ≤ q.1 := by
  intro l
  induction l with
  | nil =>
    intro i q hq
    simp [pyEnumFrom] at hq
  | cons x xs ih =>
    intro i q hq
    rcases List.mem_cons.mp hq with h | h
    · rw [h]
    · exact Nat.le_of_succ_le (ih (i + 1) q h)

/-- Enumerate produces strictly increasing indices. -/
theorem pyEnumFrom_pairwise {β : Type _} : ∀ (l : List β) (i : ℕ),
    (pyEnumFrom i l).Pairwise (fun a b => a.1 < b.1) := by
  intro l
  induction l with
  | nil =>
    intro i
    simp [pyEnumFrom]
  | cons x xs ih =>
    intro i
    refine List.Pairwise.cons ?_ (ih (i + 1))
    intro q hq
    exact Nat.lt_of_succ_le (pyEnumFrom_mem_fst xs (i + 1) q hq)

/-- The collected job pairs carry strictly increasing indices. -/
theorem launchPairs_pairwise {β : Type _} (runTask : ℕ → α → β)
    (jobs : List α) :
    (launchPairs runTask jobs).Pairwise (fun a b => a.1 < b.1) := by
  unfold launchPairs pyEnum
  rw [List.pairwise_map]
  exact (pyEnumFrom_pairwise jobs 0).imp (fun h => h)

/-- Claim C8: for deterministic jobs, the parallel branch of
ParallelLauncher.launch - collecting the (index, result) pairs of the
worker pool in an arbitrary order and re-sorting them by index - returns
exactly the result list of the sequential branch, in index order. -/
theorem launch_order_invariance {β : Type _} (runTask : ℕ → α → β)
    (jobs : List α) (collected : List (ℕ × β))
    (hperm : collected.Perm (launchPairs runTask jobs)) :
    launchPar collected = launchSeq runTask jobs := by
  classical
  have hperm2 : (collected.mergeSort (fun a b => Nat.ble a.1 b.1)).Perm
      (launchPairs runTask jobs) :=
    (List.mergeSort_perm collected _).trans hperm
  have hsorted : (collected.mergeSort
      (fun a b => Nat.ble a.1 b.1)).Pairwise
      (fun a b => Nat.ble a.1 b.1) :=
    List.sorted_mergeSort
      (fun a b c h1 h2 => by
        simp only [Nat.ble_eq] at h1 h2 ⊢
        omega)
      (fun a b => by
        simp only [Bool.or_eq_true, Nat.ble_eq]
        omega)
      collected
  have hLpair : (launchPairs runTask jobs).Pairwise
      (fun a b => a.1 < b.1) := launchPairs_pairwise runTask jobs
  have hLnodup : ((launchPairs runTask jobs).map Prod.fst).Nodup :=
    List.pairwise_map.mpr (hLpair.imp (fun h => Nat.ne_of_lt h))
  have hSnodup : ((collected.mergeSort
      (fun a b => Nat.ble a.1 b.1)).map Prod.fst).Nodup :=
    (List.Perm.nodup_iff (hperm2.map Prod.fst)).mpr hLnodup
  have hSne : (collected.mergeSort (fun a b => Nat.ble a.1 b.1)).Pairwise
      (fun a b => Prod.fst a ≠ Prod.fst b) :=
    List.pairwise_map.mp hSnodup
  have hSlt : (collected.mergeSort (fun a b => Nat.ble a.1 b.1)).Pairwise
      (fun a b => a.1 < b.1) :=
    (hsorted.and hSne).imp
      (fun h => Nat.lt_of_le_of_ne (Nat.ble_eq.mp h.1) h.2)
  haveI : IsAntisymm (ℕ × β) (fun a b => a.1 < b.1) :=
    ⟨fun a b h1 h2 => absurd (Nat.lt_trans h1 h2) (Nat.lt_irrefl _)⟩
  have hfinal : collected.mergeSort (fun a b => Nat.ble a.1 b.1) =
      launchPairs runTask jobs :=
    List.eq_of_perm_of_sorted hperm2 hSlt hLpair
  unfold launchPar
  rw [hfinal]
  unfold launchPairs launchSeq
  rw [List.map_map]
  rfl

/-- Witness for launch_order_invariance: three jobs collected from the
pool out of order sort back to the sequential result list. -/
theorem launch_order_invariance_witness :
    launchPar [(2, 20), (0, 0), (1, 10)] =
      launchSeq (fun i _ => 10 * i) ["x", "y", "z"] :=
  launch_order_invariance (fun i _ => 10 * i) ["x", "y", "z"]
    [(2, 20), (0, 0), (1, 10)] (by decide)
